import Mathlib

/-!
Verification of the aspect-ratio batch-sampler module
(`examples/text_to_image/utils.py`).

The module groups a stream of item indices into batches by the nearest member
of a fixed table of aspect-ratio bucket keys.  Its parts, embedded below:

* the nearest-key resolver `min(ratios.keys(), key=lambda r: abs(float(r) - ratio))`;
* `AspectRatioBatchSampler.__iter__` (streaming accumulation, flush-on-full,
  end-of-stream drain);
* `BalancedAspectRatioBatchSampler.__iter__` (per-key quotas, available/exhausted
  fairness sets, trailing replay phase).

Numeric values (Python floats) are modelled by an arbitrary `LinearOrderedCommRing`;
the general theorems hold for any such ring (in particular the rationals or the
reals, of which the binary floats used by the source are an order-embedded
subset for the decimal values at stake).  Concrete example tables instantiate
the value type at `ℤ` with all decimal literals of the source scaled by 100
(e.g. key "0.5" carries the value 50); the scaling map is linear and
order-preserving, so every comparison of absolute differences performed by the
code is preserved verbatim.
-/

set_option maxRecDepth 8000

namespace AspectRatio

/-- A bucket table is the ordered list of bucket keys of the Python dict
`ASPECT_RATIO_512` (iteration order = insertion order), each key paired with
the numeric value `float(key)` that the source computes from the key string.
The dimension payload of the Python table plays no role in the scheduling
logic and is omitted. -/
abbrev Table (V : Type) := List (String × V)

/-- `minBy f t ts` mirrors Python `min(t :: ts, key=f)`: a left fold that keeps
the current minimizer and replaces it only when a strictly smaller key value
appears, so on ties the earliest element in iteration order is kept. -/
def minBy {α V : Type} [LinearOrder V] (f : α → V) (t : α) (ts : List α) : α :=
  ts.foldl (fun b a => if f a < f b then a else b) t

/-- The nearest-key resolver
`min(self.aspect_ratios.keys(), key=lambda r: abs(float(r) - ratio))`
(also the pattern of `get_closest_ratio`).  It is a pure function of the table
and the value.  On the empty table Python `min` raises; we return `none` there
(the table is never empty by construction). -/
def resolveNearest {V : Type} [LinearOrderedCommRing V] (tbl : Table V) (x : V) :
    Option (String × V) :=
  match tbl with
  | [] => none
  | t :: ts => some (minBy (fun kv => |kv.2 - x|) t ts)

/-- The resolved key string, as used by `AspectRatioBatchSampler.__iter__`. -/
def resolveKey {V : Type} [LinearOrderedCommRing V] (tbl : Table V) (x : V) : String :=
  ((resolveNearest tbl x).map (fun kv => kv.1)).getD ("")

/-- The resolved key's numeric value, `float(min(...))`, as used by
`BalancedAspectRatioBatchSampler.__iter__` (whose buckets are keyed by
`float(ratio)`). -/
def resolveKeyQ {V : Type} [LinearOrderedCommRing V] (tbl : Table V) (x : V) : V :=
  ((resolveNearest tbl x).map (fun kv => kv.2)).getD 0

lemma minBy_le {α V : Type} [LinearOrder V] (f : α → V) (ts : List α) :
    ∀ t : α, f (minBy f t ts) ≤ f t ∧ ∀ b ∈ ts, f (minBy f t ts) ≤ f b := by
  induction ts with
  | nil =>
    intro t
    exact ⟨le_refl _, by simp⟩
  | cons a ts ih =>
    intro t
    by_cases h : f a < f t
    · have h1 : minBy f t (a :: ts) = minBy f a ts := by
        simp [minBy, List.foldl, if_pos h]
      rcases ih a with ⟨ha, hb⟩
      rw [h1]
      refine ⟨le_trans ha (le_of_lt h), ?_⟩
      intro b hbmem
      rcases List.mem_cons.mp hbmem with rfl | hmem
      · exact ha
      · exact hb b hmem
    · have h1 : minBy f t (a :: ts) = minBy f t ts := by
        simp [minBy, List.foldl, if_neg h]
      rcases ih t with ⟨ha, hb⟩
      rw [h1]
      refine ⟨ha, ?_⟩
      intro b hbmem
      rcases List.mem_cons.mp hbmem with rfl | hmem
      · exact le_trans ha (not_lt.mp h)
      · exact hb b hmem

lemma minBy_first {α V : Type} [LinearOrder V] (f : α → V) (ts : List α) :
    ∀ t : α, ∃ p q, t :: ts = p ++ minBy f t ts :: q ∧
      ∀ b ∈ p, f (minBy f t ts) < f b := by
  induction ts with
  | nil =>
    intro t
    exact ⟨[], [], by simp [minBy], by simp⟩
  | cons a ts ih =>
    intro t
    by_cases h : f a < f t
    · have h1 : minBy f t (a :: ts) = minBy f a ts := by
        simp [minBy, List.foldl, if_pos h]
      rcases ih a with ⟨p, q, hpq, hlt⟩
      refine ⟨t :: p, q, ?_, ?_⟩
      · rw [h1, List.cons_append, ← hpq]
      · intro b hb
        rcases List.mem_cons.mp hb with rfl | hbp
        · rw [h1]
          exact lt_of_le_of_lt (minBy_le f ts a).1 h
        · rw [h1]
          exact hlt b hbp
    · have h1 : minBy f t (a :: ts) = minBy f t ts := by
        simp [minBy, List.foldl, if_neg h]
      rcases ih t with ⟨p, q, hpq, hlt⟩
      cases p with
      | nil =>
        simp only [List.nil_append] at hpq
        have ht : t = minBy f t ts := (List.cons_eq_cons.mp hpq).1
        refine ⟨[], a :: ts, ?_, by simp⟩
        rw [h1, ← ht, List.nil_append]
      | cons t0 p2 =>
        simp only [List.cons_append] at hpq
        have h2 := List.cons_eq_cons.mp hpq
        refine ⟨t :: a :: p2, q, ?_, ?_⟩
        · rw [h1, List.cons_append, List.cons_append, ← h2.2]
        · intro b hb
          have hmint : f (minBy f t ts) < f t := by
            have : t ∈ t0 :: p2 := by
              rw [← h2.1]
              exact List.mem_cons_self _ _
            simpa [h1] using hlt t this
          rcases List.mem_cons.mp hb with rfl | hb2
          · simpa [h1] using hmint
          · rcases List.mem_cons.mp hb2 with rfl | hb3
            · rw [h1]
              exact lt_of_lt_of_le hmint (not_lt.mp h)
            · have : b ∈ t0 :: p2 := List.mem_cons_of_mem _ hb3
              simpa [h1] using hlt b this

lemma minBy_mem {α V : Type} [LinearOrder V] (f : α → V) (ts : List α) (t : α) :
    minBy f t ts ∈ t :: ts := by
  rcases minBy_first f ts t with ⟨p, q, hpq, -⟩
  rw [hpq]
  exact List.mem_append.mpr (Or.inr (List.mem_cons_self _ _))

lemma resolveKey_mem {V : Type} [LinearOrderedCommRing V] (tbl : Table V) (x : V)
    (h : tbl ≠ []) : resolveKey tbl x ∈ tbl.map (fun kv => kv.1) := by
  match tbl, h with
  | t :: ts, _ =>
    have := minBy_mem (fun kv : String × V => |kv.2 - x|) ts t
    simp only [resolveKey, resolveNearest, Option.map_some', Option.getD_some]
    exact List.mem_map.mpr ⟨_, this, rfl⟩

/-- The concrete three-key table of the spec's examples, with numeric values
scaled by 100 (keys "0.5", "1.0", "2.0" carry 50, 100, 200). -/
def tblEx : Table ℤ := [("0.5", 50), ("1.0", 100), ("2.0", 200)]

/-- C1: for every (nonempty) table and every value, the nearest-key resolver
returns a table entry whose distance to the value is minimal, and every entry
strictly before it in table iteration order has strictly greater distance —
i.e. on exact ties the first key in table order wins.  The resolver is a pure
function of the table and the value. -/
theorem claim_C1_resolver_first_min {V : Type} [LinearOrderedCommRing V]
    (tbl : Table V) (x : V) (htbl : tbl ≠ []) :
    ∃ m, resolveNearest tbl x = some m ∧
      (∀ b ∈ tbl, |m.2 - x| ≤ |b.2 - x|) ∧
      ∃ p q, tbl = p ++ m :: q ∧ ∀ b ∈ p, |m.2 - x| < |b.2 - x| := by
  match tbl, htbl with
  | t :: ts, _ =>
    refine ⟨minBy (fun kv : String × V => |kv.2 - x|) t ts, rfl, ?_, ?_⟩
    · intro b hb
      rcases List.mem_cons.mp hb with rfl | hmem
      · exact (minBy_le (fun kv : String × V => |kv.2 - x|) ts b).1
      · exact (minBy_le (fun kv : String × V => |kv.2 - x|) ts t).2 b hmem
    · exact minBy_first (fun kv : String × V => |kv.2 - x|) ts t

/-- Witness for C1 at the spec's example: table keys ["0.5","1.0","2.0"] in
that order and value 0.75 (scaled: 75), which is equidistant from "0.5" and
"1.0" and resolves to "0.5", the first of the two in table order. -/
theorem claim_C1_witness :
    (∃ m, resolveNearest tblEx 75 = some m ∧
      (∀ b ∈ tblEx, |m.2 - 75| ≤ |b.2 - 75|) ∧
      ∃ p q, tblEx = p ++ m :: q ∧ ∀ b ∈ p, |m.2 - 75| < |b.2 - 75|) ∧
    resolveKey tblEx 75 = "0.5" ∧ |(50 : ℤ) - 75| = |(100 : ℤ) - 75| :=
  ⟨claim_C1_resolver_first_min tblEx 75 (by decide), by decide, by decide⟩

/-- Pointwise update of a bucket map, modelling mutation of one entry of a
Python dict whose key set is fixed at construction time. -/
def upd {κ α : Type} [DecidableEq κ] (f : κ → α) (k : κ) (v : α) : κ → α :=
  fun x => if x = k then v else f x

lemma upd_same {κ α : Type} [DecidableEq κ] (f : κ → α) (k : κ) (v : α) :
    upd f k v k = v := by simp [upd]

lemma upd_ne {κ α : Type} [DecidableEq κ] (f : κ → α) (k : κ) (v : α) (x : κ)
    (h : x ≠ k) : upd f k v x = f x := by simp [upd, h]

/-- One streaming step of `AspectRatioBatchSampler.__iter__` for a pulled index
`idx`: resolve the key; skip if it is not in `current_available_bucket_keys`;
otherwise append `idx` to that key's bucket and, if the bucket's length now
equals `batch_size`, emit the bucket's contents (tagged with the key, which the
Python generator leaves implicit) and clear the bucket. -/
def stepBasic {V : Type} [LinearOrderedCommRing V] (bs : Nat) (tbl : Table V)
    (avail : List String) (ratios : Nat → V) (f : String → List Nat) (idx : Nat) :
    (String → List Nat) × Option (String × List Nat) :=
  let k := resolveKey tbl (ratios idx)
  if k ∈ avail then
    let b := f k ++ [idx]
    if b.length = bs then (upd f k [], some (k, b)) else (upd f k b, none)
  else (f, none)

/-- The streaming phase of `AspectRatioBatchSampler.__iter__`: fold
`stepBasic` over the index stream, collecting the emitted batches in order.
Returns the final bucket contents and the emissions. -/
def runBasic {V : Type} [LinearOrderedCommRing V] (bs : Nat) (tbl : Table V)
    (avail : List String) (ratios : Nat → V) :
    List Nat → (String → List Nat) → (String → List Nat) × List (String × List Nat)
  | [], f => (f, [])
  | idx :: idxs, f =>
    let r := stepBasic bs tbl avail ratios f idx
    let rest := runBasic bs tbl avail ratios idxs r.1
    (rest.1, r.2.toList ++ rest.2)

/-- The drain loop body of `AspectRatioBatchSampler.__iter__` for one bucket:
`while len(bucket) > 0: if len(bucket) <= batch_size: (yield copy unless
drop_last); bucket = [] else: yield bucket[:batch_size]; bucket =
bucket[batch_size:]`.  The loop rebinds a local variable, so it never mutates
the stored bucket; this function returns only the emitted batches.  With
`bs = 0` the Python loop would not terminate, but construction rejects
non-positive `batch_size`, so that case is unreachable and mapped to `[]`. -/
def drainBucketAux (dl : Bool) (b : Nat) : Nat → List Nat → List (List Nat)
  | 0, _ => []
  | _, [] => []
  | fuel + 1, x :: xs =>
    if (x :: xs).length ≤ b + 1 then (if dl then [] else [x :: xs])
    else (x :: xs).take (b + 1) :: drainBucketAux dl b fuel ((x :: xs).drop (b + 1))

/-- The drain loop with the fuel fixed at the bucket's length, which always
suffices because every iteration of the `while` removes at least one element
(`batch_size ≥ 1`; the loop of the source would not terminate for
`batch_size = 0`, which construction rejects, so that case is mapped
to `[]`). -/
def drainBucket (dl : Bool) (bs : Nat) (l : List Nat) : List (List Nat) :=
  match bs with
  | 0 => []
  | b + 1 => drainBucketAux dl b l.length l

lemma drainBucketAux_fuel (dl : Bool) (b : Nat) :
    ∀ (fuel1 : Nat) (l : List Nat) (fuel2 : Nat), l.length ≤ fuel1 → l.length ≤ fuel2 →
      drainBucketAux dl b fuel1 l = drainBucketAux dl b fuel2 l := by
  intro fuel1
  induction fuel1 with
  | zero =>
    intro l fuel2 h1 _
    have : l = [] := List.length_eq_zero.mp (Nat.le_zero.mp h1)
    subst this
    cases fuel2 <;> rfl
  | succ n ih =>
    intro l fuel2 h1 h2
    cases l with
    | nil => cases fuel2 <;> rfl
    | cons x xs =>
      cases fuel2 with
      | zero => simp at h2
      | succ m =>
        simp only [drainBucketAux]
        by_cases hle : (x :: xs).length ≤ b + 1
        · rw [if_pos hle, if_pos hle]
        · rw [if_neg hle, if_neg hle]
          have hlen : ((x :: xs).drop (b + 1)).length ≤ n := by
            simp only [List.length_drop, List.length_cons] at *
            omega
          have hlen2 : ((x :: xs).drop (b + 1)).length ≤ m := by
            simp only [List.length_drop, List.length_cons] at *
            omega
          rw [ih _ _ hlen hlen2]

lemma drainBucket_nil (dl : Bool) (bs : Nat) : drainBucket dl bs [] = [] := by
  cases bs <;> rfl

lemma drainBucket_le (dl : Bool) (b : Nat) (l : List Nat) (h0 : l ≠ [])
    (h : l.length ≤ b + 1) : drainBucket dl (b + 1) l = if dl then [] else [l] := by
  match l, h0 with
  | x :: xs, _ =>
    have hcond : (x :: xs).length ≤ b + 1 := h
    simp only [drainBucket, drainBucketAux, if_pos hcond]

lemma drainBucket_gt (dl : Bool) (b : Nat) (l : List Nat) (h : b + 1 < l.length) :
    drainBucket dl (b + 1) l
      = l.take (b + 1) :: drainBucket dl (b + 1) (l.drop (b + 1)) := by
  match l with
  | [] => exact absurd h (by simp)
  | x :: xs =>
    have hne : ¬ (x :: xs).length ≤ b + 1 := not_le.mpr h
    have hd : ((x :: xs).drop (b + 1)).length ≤ xs.length := by
      rw [List.length_drop]
      simp only [List.length_cons]
      omega
    have e1 : drainBucket dl (b + 1) (x :: xs)
        = if (x :: xs).length ≤ b + 1 then (if dl then [] else [x :: xs])
          else (x :: xs).take (b + 1)
            :: drainBucketAux dl b xs.length ((x :: xs).drop (b + 1)) := rfl
    rw [e1, if_neg hne]
    congr 1
    exact drainBucketAux_fuel dl b xs.length ((x :: xs).drop (b + 1)) _ hd (le_refl _)

/-- The drain phase: `for bucket in self._aspect_ratio_buckets.values(): ...`.
The dict is built by a comprehension over the table, so its values are visited
in table iteration order.  Each emission is tagged with its bucket key. -/
def drainAllKeyed {V : Type} (dl : Bool) (bs : Nat) (tbl : Table V)
    (f : String → List Nat) : List (String × List Nat) :=
  (tbl.map (fun kv => (drainBucket dl bs (f kv.1)).map (fun c => (kv.1, c)))).flatten

/-- One full pass of `AspectRatioBatchSampler.__iter__` (streaming then drain),
with emissions tagged by bucket key.  The returned bucket map is the state the
instance keeps after the pass: the drain loop only rebinds a local variable, so
the stored buckets are exactly those left by the streaming phase. -/
def basicPassKeyed {V : Type} [LinearOrderedCommRing V] (bs : Nat) (dl : Bool)
    (tbl : Table V) (avail : List String) (ratios : Nat → V) (idxs : List Nat)
    (f0 : String → List Nat) : (String → List Nat) × List (String × List Nat) :=
  let r := runBasic bs tbl avail ratios idxs f0
  (r.1, r.2 ++ drainAllKeyed dl bs tbl r.1)

/-- The observable output of one pass: the batches in emission order, as the
Python generator yields them (without key tags). -/
def basicPass {V : Type} [LinearOrderedCommRing V] (bs : Nat) (dl : Bool)
    (tbl : Table V) (avail : List String) (ratios : Nat → V) (idxs : List Nat)
    (f0 : String → List Nat) : (String → List Nat) × List (List Nat) :=
  let r := basicPassKeyed bs dl tbl avail ratios idxs f0
  (r.1, r.2.map (fun p => p.2))

/-- The concatenated contents of the batches emitted for bucket key `k`, in
emission order. -/
def emittedFor {κ : Type} [DecidableEq κ] (out : List (κ × List Nat)) (k : κ) :
    List Nat :=
  ((out.filter (fun p => decide (p.1 = k))).map (fun p => p.2)).flatten

/-- The subsequence of the index stream that the streaming phase appends to
bucket `k`: the indices resolving to `k`, provided `k` is an available key. -/
def appendedFor {V : Type} [LinearOrderedCommRing V] (tbl : Table V)
    (avail : List String) (ratios : Nat → V) (idxs : List Nat) (k : String) :
    List Nat :=
  if k ∈ avail then idxs.filter (fun i => decide (resolveKey tbl (ratios i) = k))
  else []

lemma emittedFor_append {κ : Type} [DecidableEq κ] (o1 o2 : List (κ × List Nat))
    (k : κ) : emittedFor (o1 ++ o2) k = emittedFor o1 k ++ emittedFor o2 k := by
  simp [emittedFor, List.filter_append]

lemma emittedFor_cons {κ : Type} [DecidableEq κ] (p : κ × List Nat)
    (o : List (κ × List Nat)) (k : κ) :
    emittedFor (p :: o) k = (if p.1 = k then p.2 else []) ++ emittedFor o k := by
  by_cases h : p.1 = k <;> simp [emittedFor, List.filter_cons, h]

lemma appendedFor_cons {V : Type} [LinearOrderedCommRing V] (tbl : Table V)
    (avail : List String) (ratios : Nat → V) (idx : Nat) (idxs : List Nat)
    (k : String) :
    appendedFor tbl avail ratios (idx :: idxs) k
      = (if k ∈ avail ∧ resolveKey tbl (ratios idx) = k then [idx] else [])
        ++ appendedFor tbl avail ratios idxs k := by
  by_cases hav : k ∈ avail
  · by_cases hk : resolveKey tbl (ratios idx) = k
    · simp [appendedFor, hav, hk, List.filter_cons]
    · simp [appendedFor, hav, hk, List.filter_cons]
  · simp [appendedFor, hav]

lemma appendedFor_nil {V : Type} [LinearOrderedCommRing V] (tbl : Table V)
    (avail : List String) (ratios : Nat → V) (k : String) :
    appendedFor tbl avail ratios [] k = [] := by
  simp [appendedFor]

lemma stepBasic_acct {V : Type} [LinearOrderedCommRing V] (bs : Nat) (tbl : Table V)
    (avail : List String) (ratios : Nat → V) (f : String → List Nat) (idx : Nat)
    (k : String) :
    emittedFor (stepBasic bs tbl avail ratios f idx).2.toList k
        ++ (stepBasic bs tbl avail ratios f idx).1 k
      = f k ++ (if k ∈ avail ∧ resolveKey tbl (ratios idx) = k then [idx] else []) := by
  unfold stepBasic
  by_cases hav : resolveKey tbl (ratios idx) ∈ avail
  · simp only [if_pos hav]
    by_cases hfull : (f (resolveKey tbl (ratios idx)) ++ [idx]).length = bs
    · simp only [if_pos hfull]
      by_cases hk : resolveKey tbl (ratios idx) = k
      · subst hk
        simp [emittedFor, upd_same, hav]
      · have hk2 : k ≠ resolveKey tbl (ratios idx) := fun h => hk h.symm
        simp [emittedFor, upd_ne _ _ _ _ hk2, hk, List.filter_cons]
    · simp only [if_neg hfull]
      by_cases hk : resolveKey tbl (ratios idx) = k
      · subst hk
        simp [emittedFor, upd_same, hav]
      · have hk2 : k ≠ resolveKey tbl (ratios idx) := fun h => hk h.symm
        simp [emittedFor, upd_ne _ _ _ _ hk2, hk]
  · simp only [if_neg hav]
    have hcond : ¬ (k ∈ avail ∧ resolveKey tbl (ratios idx) = k) := by
      rintro ⟨h1, rfl⟩
      exact hav h1
    simp [emittedFor, hcond]

/-- Streaming accounting: for every key, the concatenation of the batches the
streaming phase emits for that key followed by the bucket's final contents
equals the bucket's initial contents followed by the indices appended to the
key, in stream order. -/
lemma runBasic_acct {V : Type} [LinearOrderedCommRing V] (bs : Nat) (tbl : Table V)
    (avail : List String) (ratios : Nat → V) :
    ∀ (idxs : List Nat) (f : String → List Nat) (k : String),
      emittedFor (runBasic bs tbl avail ratios idxs f).2 k
          ++ (runBasic bs tbl avail ratios idxs f).1 k
        = f k ++ appendedFor tbl avail ratios idxs k := by
  intro idxs
  induction idxs with
  | nil =>
    intro f k
    simp [runBasic, emittedFor, appendedFor_nil]
  | cons idx idxs ih =>
    intro f k
    have hstep := stepBasic_acct bs tbl avail ratios f idx k
    have hih := ih (stepBasic bs tbl avail ratios f idx).1 k
    calc emittedFor (runBasic bs tbl avail ratios (idx :: idxs) f).2 k
          ++ (runBasic bs tbl avail ratios (idx :: idxs) f).1 k
        = emittedFor (stepBasic bs tbl avail ratios f idx).2.toList k
            ++ (emittedFor (runBasic bs tbl avail ratios idxs
                  (stepBasic bs tbl avail ratios f idx).1).2 k
                ++ (runBasic bs tbl avail ratios idxs
                  (stepBasic bs tbl avail ratios f idx).1).1 k) := by
          simp [runBasic, emittedFor_append, List.append_assoc]
      _ = emittedFor (stepBasic bs tbl avail ratios f idx).2.toList k
            ++ ((stepBasic bs tbl avail ratios f idx).1 k
                ++ appendedFor tbl avail ratios idxs k) := by rw [hih]
      _ = (emittedFor (stepBasic bs tbl avail ratios f idx).2.toList k
            ++ (stepBasic bs tbl avail ratios f idx).1 k)
            ++ appendedFor tbl avail ratios idxs k := by
          rw [List.append_assoc]
      _ = (f k ++ (if k ∈ avail ∧ resolveKey tbl (ratios idx) = k then [idx] else []))
            ++ appendedFor tbl avail ratios idxs k := by rw [hstep]
      _ = f k ++ appendedFor tbl avail ratios (idx :: idxs) k := by
          rw [appendedFor_cons, List.append_assoc]

/-- Streaming keeps every bucket strictly below `batch_size`: an append that
reaches `batch_size` is immediately flushed. -/
lemma runBasic_len {V : Type} [LinearOrderedCommRing V] (bs : Nat) (tbl : Table V)
    (avail : List String) (ratios : Nat → V) :
    ∀ (idxs : List Nat) (f : String → List Nat),
      (∀ k, (f k).length < bs) →
      ∀ k, ((runBasic bs tbl avail ratios idxs f).1 k).length < bs := by
  intro idxs
  induction idxs with
  | nil =>
    intro f hf k
    exact hf k
  | cons idx idxs ih =>
    intro f hf k
    refine ih _ ?_ k
    intro k2
    unfold stepBasic
    by_cases hav : resolveKey tbl (ratios idx) ∈ avail
    · simp only [if_pos hav]
      by_cases hfull : (f (resolveKey tbl (ratios idx)) ++ [idx]).length = bs
      · simp only [if_pos hfull]
        by_cases hk : k2 = resolveKey tbl (ratios idx)
        · rw [hk, upd_same]
          simp only [List.length_nil]
          have h2 : (f (resolveKey tbl (ratios idx)) ++ [idx]).length
              = (f (resolveKey tbl (ratios idx))).length + 1 := by simp
          omega
        · rw [upd_ne _ _ _ _ hk]
          exact hf k2
      · simp only [if_neg hfull]
        by_cases hk : k2 = resolveKey tbl (ratios idx)
        · rw [hk, upd_same]
          have h1 := hf (resolveKey tbl (ratios idx))
          have h2 : (f (resolveKey tbl (ratios idx)) ++ [idx]).length
              = (f (resolveKey tbl (ratios idx))).length + 1 := by simp
          omega
        · rw [upd_ne _ _ _ _ hk]
          exact hf k2
    · simp only [if_neg hav]
      exact hf k2

/-- Every batch emitted by the streaming phase has length exactly `batch_size`. -/
lemma runBasic_full {V : Type} [LinearOrderedCommRing V] (bs : Nat) (tbl : Table V)
    (avail : List String) (ratios : Nat → V) :
    ∀ (idxs : List Nat) (f : String → List Nat) (p : String × List Nat),
      p ∈ (runBasic bs tbl avail ratios idxs f).2 → p.2.length = bs := by
  intro idxs
  induction idxs with
  | nil =>
    intro f p hp
    simp [runBasic] at hp
  | cons idx idxs ih =>
    intro f p hp
    simp only [runBasic, List.mem_append] at hp
    rcases hp with hp | hp
    · unfold stepBasic at hp
      by_cases hav : resolveKey tbl (ratios idx) ∈ avail
      · simp only [if_pos hav] at hp
        by_cases hfull : (f (resolveKey tbl (ratios idx)) ++ [idx]).length = bs
        · simp only [if_pos hfull, Option.toList_some, List.mem_singleton] at hp
          subst hp
          exact hfull
        · simp only [if_neg hfull, Option.toList_none] at hp
          simp at hp
      · simp only [if_neg hav, Option.toList_none] at hp
        simp at hp
    · exact ih _ p hp

/-- Streaming preserves bucket purity: if every bucket holds only indices that
resolve to its key, this stays true, and every emitted batch holds only
indices resolving to the batch's key. -/
lemma runBasic_pure {V : Type} [LinearOrderedCommRing V] (bs : Nat) (tbl : Table V)
    (avail : List String) (ratios : Nat → V) :
    ∀ (idxs : List Nat) (f : String → List Nat),
      (∀ k i, i ∈ f k → resolveKey tbl (ratios i) = k) →
      (∀ k i, i ∈ (runBasic bs tbl avail ratios idxs f).1 k →
        resolveKey tbl (ratios i) = k) ∧
      (∀ p ∈ (runBasic bs tbl avail ratios idxs f).2,
        ∀ i ∈ p.2, resolveKey tbl (ratios i) = p.1) := by
  intro idxs
  induction idxs with
  | nil =>
    intro f hf
    refine ⟨hf, ?_⟩
    intro p hp
    simp [runBasic] at hp
  | cons idx idxs ih =>
    intro f hf
    have hstep : ∀ k i, i ∈ (stepBasic bs tbl avail ratios f idx).1 k →
        resolveKey tbl (ratios i) = k := by
      intro k i hi
      unfold stepBasic at hi
      by_cases hav : resolveKey tbl (ratios idx) ∈ avail
      · simp only [if_pos hav] at hi
        by_cases hfull : (f (resolveKey tbl (ratios idx)) ++ [idx]).length = bs
        · simp only [if_pos hfull] at hi
          by_cases hk : k = resolveKey tbl (ratios idx)
          · subst hk
            rw [upd_same] at hi
            simp at hi
          · rw [upd_ne _ _ _ _ hk] at hi
            exact hf k i hi
        · simp only [if_neg hfull] at hi
          by_cases hk : k = resolveKey tbl (ratios idx)
          · subst hk
            rw [upd_same] at hi
            rcases List.mem_append.mp hi with hi | hi
            · exact hf _ i hi
            · rw [List.mem_singleton.mp hi]
          · rw [upd_ne _ _ _ _ hk] at hi
            exact hf k i hi
      · simp only [if_neg hav] at hi
        exact hf k i hi
    have hemit : ∀ p ∈ (stepBasic bs tbl avail ratios f idx).2.toList,
        ∀ i ∈ p.2, resolveKey tbl (ratios i) = p.1 := by
      intro p hp i hi
      unfold stepBasic at hp
      by_cases hav : resolveKey tbl (ratios idx) ∈ avail
      · simp only [if_pos hav] at hp
        by_cases hfull : (f (resolveKey tbl (ratios idx)) ++ [idx]).length = bs
        · simp only [if_pos hfull, Option.toList_some, List.mem_singleton] at hp
          subst hp
          simp only at hi
          rcases List.mem_append.mp hi with hi | hi
          · exact hf _ i hi
          · rw [List.mem_singleton.mp hi]
        · simp only [if_neg hfull, Option.toList_none] at hp
          simp at hp
      · simp only [if_neg hav, Option.toList_none] at hp
        simp at hp
    rcases ih (stepBasic bs tbl avail ratios f idx).1 hstep with ⟨h1, h2⟩
    refine ⟨h1, ?_⟩
    intro p hp
    simp only [runBasic, List.mem_append] at hp
    rcases hp with hp | hp
    · exact hemit p hp
    · exact h2 p hp

/-- Streaming leaves keys outside the table untouched (the resolver always
returns a table key). -/
lemma runBasic_untouched {V : Type} [LinearOrderedCommRing V] (bs : Nat)
    (tbl : Table V) (avail : List String) (ratios : Nat → V) (htbl : tbl ≠ []) :
    ∀ (idxs : List Nat) (f : String → List Nat) (k : String),
      k ∉ tbl.map (fun kv => kv.1) →
      (runBasic bs tbl avail ratios idxs f).1 k = f k := by
  intro idxs
  induction idxs with
  | nil =>
    intro f k _
    rfl
  | cons idx idxs ih =>
    intro f k hk
    have hne : k ≠ resolveKey tbl (ratios idx) := by
      intro h
      exact hk (h ▸ resolveKey_mem tbl (ratios idx) htbl)
    have hstep : (stepBasic bs tbl avail ratios f idx).1 k = f k := by
      unfold stepBasic
      by_cases hav : resolveKey tbl (ratios idx) ∈ avail
      · simp only [if_pos hav]
        by_cases hfull : (f (resolveKey tbl (ratios idx)) ++ [idx]).length = bs
        · simp only [if_pos hfull]
          exact upd_ne _ _ _ _ hne
        · simp only [if_neg hfull]
          exact upd_ne _ _ _ _ hne
      · simp only [if_neg hav]
    rw [show (runBasic bs tbl avail ratios (idx :: idxs) f).1
        = (runBasic bs tbl avail ratios idxs (stepBasic bs tbl avail ratios f idx).1).1
        from rfl]
    rw [ih _ k hk, hstep]

lemma drainBucket_flatten_false (b : Nat) :
    ∀ (n : Nat) (l : List Nat), l.length ≤ n →
      (drainBucket false (b + 1) l).flatten = l := by
  intro n
  induction n with
  | zero =>
    intro l hl
    have : l = [] := List.length_eq_zero.mp (Nat.le_zero.mp hl)
    subst this
    simp [drainBucket_nil]
  | succ n ih =>
    intro l hl
    match l with
    | [] => simp [drainBucket_nil]
    | x :: xs =>
      by_cases hle : (x :: xs).length ≤ b + 1
      · rw [drainBucket_le false b _ (by simp) hle]
        simp
      · rw [drainBucket_gt false b _ (not_le.mp hle)]
        have hlen : ((x :: xs).drop (b + 1)).length ≤ n := by
          rw [List.length_drop]
          simp only [List.length_cons] at *
          omega
        simp only [List.flatten_cons, ih _ hlen]
        exact List.take_append_drop _ _

lemma drainBucket_true_le (b : Nat) (l : List Nat) (h : l.length ≤ b + 1) :
    drainBucket true (b + 1) l = [] := by
  match l with
  | [] => exact drainBucket_nil true (b + 1)
  | x :: xs =>
    rw [drainBucket_le true b _ (by simp) h]
    simp

lemma drainBucket_mem (dl : Bool) (b : Nat) :
    ∀ (n : Nat) (l : List Nat) (c : List Nat), l.length ≤ n →
      c ∈ drainBucket dl (b + 1) l →
      c ≠ [] ∧ c.length ≤ b + 1 ∧ ∀ i ∈ c, i ∈ l := by
  intro n
  induction n with
  | zero =>
    intro l c hl hc
    have : l = [] := List.length_eq_zero.mp (Nat.le_zero.mp hl)
    subst this
    rw [drainBucket_nil] at hc
    simp at hc
  | succ n ih =>
    intro l c hl hc
    match l with
    | [] =>
      rw [drainBucket_nil] at hc
      simp at hc
    | x :: xs =>
      by_cases hle : (x :: xs).length ≤ b + 1
      · rw [drainBucket_le dl b _ (by simp) hle] at hc
        cases dl with
        | true => simp at hc
        | false =>
          simp at hc
          subst hc
          exact ⟨by simp, hle, fun i hi => hi⟩
      · rw [drainBucket_gt dl b _ (not_le.mp hle)] at hc
        rcases List.mem_cons.mp hc with rfl | hc2
        · refine ⟨?_, ?_, ?_⟩
          · have : ((x :: xs).take (b + 1)).length = b + 1 := by
              rw [List.length_take]
              simp only [List.length_cons] at hle ⊢
              omega
            intro hnil
            rw [hnil] at this
            simp at this
          · rw [List.length_take]
            exact min_le_left _ _
          · intro i hi
            exact List.mem_of_mem_take hi
        · have hlen : ((x :: xs).drop (b + 1)).length ≤ n := by
            rw [List.length_drop]
            simp only [List.length_cons] at *
            omega
          rcases ih _ c hlen hc2 with ⟨h1, h2, h3⟩
          exact ⟨h1, h2, fun i hi => List.mem_of_mem_drop (h3 i hi)⟩

lemma emittedFor_map_const {κ : Type} [DecidableEq κ] (k0 k : κ)
    (l : List (List Nat)) :
    emittedFor (l.map (fun c => (k0, c))) k
      = if k0 = k then l.flatten else [] := by
  induction l with
  | nil => by_cases h : k0 = k <;> simp [emittedFor, h]
  | cons c l ih =>
    by_cases h : k0 = k
    · simp only [List.map_cons, emittedFor_cons, if_pos h, ih]
      simp [h]
    · simp only [List.map_cons, emittedFor_cons, if_neg h, ih]
      simp [h]

lemma emittedFor_drainAll {V : Type} (dl : Bool) (bs : Nat) :
    ∀ (tbl : Table V) (f : String → List Nat) (k : String),
      (tbl.map (fun kv => kv.1)).Nodup →
      emittedFor (drainAllKeyed dl bs tbl f) k
        = if k ∈ tbl.map (fun kv => kv.1)
          then (drainBucket dl bs (f k)).flatten else [] := by
  intro tbl
  induction tbl with
  | nil =>
    intro f k _
    simp [drainAllKeyed, emittedFor]
  | cons kv tbl ih =>
    intro f k hnd
    simp only [List.map_cons, List.nodup_cons] at hnd
    have hsplit : drainAllKeyed dl bs (kv :: tbl) f
        = (drainBucket dl bs (f kv.1)).map (fun c => (kv.1, c))
          ++ drainAllKeyed dl bs tbl f := by
      simp [drainAllKeyed]
    rw [hsplit, emittedFor_append, emittedFor_map_const, ih f k hnd.2]
    by_cases hk : kv.1 = k
    · subst hk
      simp only [if_pos rfl]
      rw [if_neg hnd.1, if_pos (by simp)]
      simp
    · rw [if_neg hk]
      by_cases hmem : k ∈ tbl.map (fun kv2 => kv2.1)
      · rw [if_pos hmem, if_pos (by simp [hmem])]
        simp
      · have hnotin : k ∉ (kv :: tbl).map (fun kv2 => kv2.1) := by
          simp only [List.map_cons, List.mem_cons]
          rintro (h2 | h2)
          · exact hk h2.symm
          · exact hmem h2
        rw [if_neg hmem, if_neg hnotin]
        simp

lemma mem_drainAllKeyed {V : Type} (dl : Bool) (bs : Nat) (tbl : Table V)
    (f : String → List Nat) (p : String × List Nat)
    (hp : p ∈ drainAllKeyed dl bs tbl f) :
    ∃ kv ∈ tbl, p.1 = kv.1 ∧ p.2 ∈ drainBucket dl bs (f kv.1) := by
  simp only [drainAllKeyed, List.mem_flatten, List.mem_map] at hp
  rcases hp with ⟨m, ⟨kv, hkv, rfl⟩, hpm⟩
  rcases List.mem_map.mp hpm with ⟨c, hc, rfl⟩
  exact ⟨kv, hkv, rfl, hc⟩

/-- The key list of `tblEx`, the constructor's
`current_available_bucket_keys = list(aspect_ratios.keys())`. -/
def availEx : List String := ["0.5", "1.0", "2.0"]

/-- The ratio stream `[0.52, 0.49, 1.05, 2.1, 0.5]` of the spec scenario,
scaled by 100, as the attribute map index ↦ ratio. -/
def ratiosEx : Nat → ℤ := fun n => [(52 : ℤ), 49, 105, 210, 50].getD n 0

/-- C2 counterexample: in the spec scenario (table keys "0.5","1.0","2.0" in
that order, `batch_size = 2`, `drop_last = false`, ratios
`[0.52, 0.49, 1.05, 2.1, 0.5]`), the emitted batches are
`[[0,1],[4],[2],[3]]` — the drain visits the buckets in table order, so the
"0.5" bucket `[4]` is drained first — and not `[[0,1],[2],[3],[4]]` as the
claim states. -/
theorem claim_C2_counterexample :
    (basicPass 2 false tblEx availEx ratiosEx [0, 1, 2, 3, 4] (fun _ => [])).2
        = [[0, 1], [4], [2], [3]] ∧
    (basicPass 2 false tblEx availEx ratiosEx [0, 1, 2, 3, 4] (fun _ => [])).2
        ≠ [[0, 1], [2], [3], [4]] := by
  constructor
  · decide
  · decide

/-- C2 (amended): on stream exhaustion the buckets are drained in table order;
each bucket repeatedly emits a `batch_size` prefix while more than
`batch_size` items remain, and the final remainder (the whole bucket once its
length is at most `batch_size`) is emitted exactly when `drop_last` is false
— with `drop_last = false` nothing is lost (the emitted batches flatten back
to the bucket).  In the concrete scenario the emitted batches are, in order:
`{0,1}` (key "0.5") during streaming, then at drain `{4}` (key "0.5"),
`{2}` (key "1.0"), `{3}` (key "2.0"), following table order. -/
theorem claim_C2_drain_behavior (dl : Bool) (b : Nat) (l : List Nat) :
    (drainBucket dl (b + 1) l
      = if b + 1 < l.length
        then l.take (b + 1) :: drainBucket dl (b + 1) (l.drop (b + 1))
        else if l = [] then [] else if dl then [] else [l]) ∧
    (drainBucket false (b + 1) l).flatten = l ∧
    (basicPass 2 false tblEx availEx ratiosEx [0, 1, 2, 3, 4] (fun _ => [])).2
        = [[0, 1], [4], [2], [3]] ∧
    (basicPassKeyed 2 false tblEx availEx ratiosEx [0, 1, 2, 3, 4]
        (fun _ => [])).2
        = [("0.5", [0, 1]), ("0.5", [4]), ("1.0", [2]), ("2.0", [3])] := by
  refine ⟨?_, drainBucket_flatten_false b l.length l (le_refl _), by decide, by decide⟩
  by_cases hgt : b + 1 < l.length
  · rw [if_pos hgt]
    exact drainBucket_gt dl b l hgt
  · rw [if_neg hgt]
    match l with
    | [] => simp [drainBucket_nil]
    | x :: xs =>
      rw [if_neg (by simp)]
      exact drainBucket_le dl b _ (by simp) (not_lt.mp hgt)

/-- C3 counterexample: in the spec's own scenario the run emits 4 batches
`[[0,1],[4],[2],[3]]`; the batch at position 1 is not the final one
(`1 < 4 - 1`) yet has length 1, not `batch_size = 2`.  So not every non-final
batch has length `batch_size`: short drain batches of distinct keys can
precede later batches. -/
theorem claim_C3_counterexample :
    (basicPass 2 false tblEx availEx ratiosEx [0, 1, 2, 3, 4] (fun _ => [])).2.length
        = 4 ∧
    (1 : Nat) < 4 - 1 ∧
    ((basicPass 2 false tblEx availEx ratiosEx [0, 1, 2, 3, 4]
        (fun _ => [])).2.getD 1 []).length = 1 ∧
    ¬ ((basicPass 2 false tblEx availEx ratiosEx [0, 1, 2, 3, 4]
        (fun _ => [])).2.getD 1 []).length = 2 := by
  refine ⟨by decide, by decide, by decide, by decide⟩

/-- C3 (amended): for a fresh instance, every batch emitted during the
streaming phase has length exactly `batch_size`; every emitted batch (drain
included) is nonempty with length at most `batch_size` (so only drain-phase
batches may be short); and all indices of an emitted batch resolve to the
batch's bucket key (hence to one and the same key). -/
theorem claim_C3_batch_shape {V : Type} [LinearOrderedCommRing V] (bs : Nat)
    (dl : Bool) (tbl : Table V) (avail : List String) (ratios : Nat → V)
    (idxs : List Nat) (hbs : 0 < bs) :
    (∀ p ∈ (runBasic bs tbl avail ratios idxs (fun _ => [])).2,
      p.2.length = bs) ∧
    (∀ p ∈ (basicPassKeyed bs dl tbl avail ratios idxs (fun _ => [])).2,
      p.2 ≠ [] ∧ p.2.length ≤ bs) ∧
    (∀ p ∈ (basicPassKeyed bs dl tbl avail ratios idxs (fun _ => [])).2,
      ∀ i ∈ p.2, resolveKey tbl (ratios i) = p.1) := by
  obtain ⟨b, rfl⟩ : ∃ b, bs = b + 1 := ⟨bs - 1, by omega⟩
  have hpure := runBasic_pure (b + 1) tbl avail ratios idxs (fun _ => [])
    (by intro k i hi; simp at hi)
  refine ⟨runBasic_full (b + 1) tbl avail ratios idxs (fun _ => []), ?_, ?_⟩
  · intro p hp
    simp only [basicPassKeyed, List.mem_append] at hp
    rcases hp with hp | hp
    · have hlen := runBasic_full (b + 1) tbl avail ratios idxs (fun _ => []) p hp
      constructor
      · intro hnil
        rw [hnil] at hlen
        simp at hlen
      · omega
    · rcases mem_drainAllKeyed _ _ _ _ _ hp with ⟨kv, _, _, hc⟩
      rcases drainBucket_mem dl b _ _ _ (le_refl _) hc with ⟨h1, h2, _⟩
      exact ⟨h1, h2⟩
  · intro p hp i hi
    simp only [basicPassKeyed, List.mem_append] at hp
    rcases hp with hp | hp
    · exact hpure.2 p hp i hi
    · rcases mem_drainAllKeyed _ _ _ _ _ hp with ⟨kv, _, hpk, hc⟩
      rcases drainBucket_mem dl b _ _ _ (le_refl _) hc with ⟨_, _, h3⟩
      rw [hpk]
      exact hpure.1 kv.1 i (h3 i hi)

/-- Witness for C3 (amended) at the spec scenario. -/
theorem claim_C3_batch_shape_witness :
    (∀ p ∈ (runBasic 2 tblEx availEx ratiosEx [0, 1, 2, 3, 4] (fun _ => [])).2,
      p.2.length = 2) ∧
    (∀ p ∈ (basicPassKeyed 2 false tblEx availEx ratiosEx [0, 1, 2, 3, 4]
        (fun _ => [])).2, p.2 ≠ [] ∧ p.2.length ≤ 2) ∧
    (∀ p ∈ (basicPassKeyed 2 false tblEx availEx ratiosEx [0, 1, 2, 3, 4]
        (fun _ => [])).2, ∀ i ∈ p.2, resolveKey tblEx (ratiosEx i) = p.1) :=
  claim_C3_batch_shape 2 false tblEx availEx ratiosEx [0, 1, 2, 3, 4] (by decide)

/-- C4: over one pass of a fresh instance, for every key: with
`drop_last = false` the concatenation of the batches emitted for the key is
exactly the sequence of indices appended to the key's bucket (each appended
index appears in exactly one batch); with `drop_last = true` the emitted
concatenation is a prefix of the appended sequence missing at most
`batch_size - 1` trailing indices. -/
theorem claim_C4_conservation {V : Type} [LinearOrderedCommRing V] (bs : Nat)
    (dl : Bool) (tbl : Table V) (avail : List String) (ratios : Nat → V)
    (idxs : List Nat) (k : String) (hbs : 0 < bs) (htbl : tbl ≠ [])
    (hnd : (tbl.map (fun kv => kv.1)).Nodup) :
    (dl = false →
      emittedFor (basicPassKeyed bs dl tbl avail ratios idxs (fun _ => [])).2 k
        = appendedFor tbl avail ratios idxs k) ∧
    (dl = true →
      ∃ rest, appendedFor tbl avail ratios idxs k
          = emittedFor (basicPassKeyed bs dl tbl avail ratios idxs
              (fun _ => [])).2 k ++ rest
        ∧ rest.length ≤ bs - 1) := by
  obtain ⟨b, rfl⟩ : ∃ b, bs = b + 1 := ⟨bs - 1, by omega⟩
  have hacct := runBasic_acct (b + 1) tbl avail ratios idxs (fun _ => []) k
  simp only [List.nil_append] at hacct
  have hsplit : emittedFor (basicPassKeyed (b + 1) dl tbl avail ratios idxs
      (fun _ => [])).2 k
      = emittedFor (runBasic (b + 1) tbl avail ratios idxs (fun _ => [])).2 k
        ++ emittedFor (drainAllKeyed dl (b + 1) tbl
            (runBasic (b + 1) tbl avail ratios idxs (fun _ => [])).1) k := by
    simp only [basicPassKeyed]
    exact emittedFor_append _ _ k
  have hdrain := emittedFor_drainAll dl (b + 1) tbl
    (runBasic (b + 1) tbl avail ratios idxs (fun _ => [])).1 k hnd
  constructor
  · rintro rfl
    rw [hsplit, hdrain]
    by_cases hmem : k ∈ tbl.map (fun kv => kv.1)
    · rw [if_pos hmem,
        drainBucket_flatten_false b _ _ (le_refl _)]
      exact hacct
    · rw [if_neg hmem]
      have huntouched := runBasic_untouched (b + 1) tbl avail ratios htbl idxs
        (fun _ => []) k hmem
      rw [huntouched] at hacct
      simpa using hacct
  · rintro rfl
    have hlen := runBasic_len (b + 1) tbl avail ratios idxs (fun _ => [])
      (by intro k2; simp) k
    refine ⟨(runBasic (b + 1) tbl avail ratios idxs (fun _ => [])).1 k, ?_, by omega⟩
    rw [hsplit, hdrain]
    by_cases hmem : k ∈ tbl.map (fun kv => kv.1)
    · rw [if_pos hmem, drainBucket_true_le b _ (by omega)]
      simpa using hacct.symm
    · rw [if_neg hmem]
      simpa using hacct.symm

/-- Witness for C4 at the spec scenario (`drop_last = false`, key "0.5"). -/
theorem claim_C4_conservation_witness :
    ((false = false) →
      emittedFor (basicPassKeyed 2 false tblEx availEx ratiosEx [0, 1, 2, 3, 4]
          (fun _ => [])).2 ("0.5")
        = appendedFor tblEx availEx ratiosEx [0, 1, 2, 3, 4] ("0.5")) ∧
    ((false = true) →
      ∃ rest, appendedFor tblEx availEx ratiosEx [0, 1, 2, 3, 4] ("0.5")
          = emittedFor (basicPassKeyed 2 false tblEx availEx ratiosEx
              [0, 1, 2, 3, 4] (fun _ => [])).2 ("0.5") ++ rest
        ∧ rest.length ≤ 2 - 1) :=
  claim_C4_conservation 2 false tblEx availEx ratiosEx [0, 1, 2, 3, 4] ("0.5")
    (by decide) (by decide) (by decide)

/-- C8: bucket contents persist across iterator invocations on the same
instance.  First, for any pass the stored buckets after the pass are exactly
the buckets left by the streaming phase — the drain loop only rebinds a local
variable and removes nothing from the stored buckets.  Second, concretely:
after a pass over the single index 0 (ratio 0.52, bucket "0.5"), the short
batch `[0]` is emitted by the drain, yet index 0 is still stored in the "0.5"
bucket; a second iteration of the same instance over the single index 1
(ratio 0.49) completes that leftover bucket and emits `[0, 1]`, so the
leftover index 0 reappears in the second pass's batch. -/
theorem claim_C8_state_persists :
    (∀ (V : Type) (_inst : LinearOrderedCommRing V) (bs : Nat) (dl : Bool)
      (tbl : Table V) (avail : List String) (ratios : Nat → V)
      (idxs : List Nat) (f0 : String → List Nat) (k : String),
      (basicPassKeyed bs dl tbl avail ratios idxs f0).1 k
        = (runBasic bs tbl avail ratios idxs f0).1 k) ∧
    (basicPass 2 false tblEx availEx ratiosEx [0] (fun _ => [])).2 = [[0]] ∧
    (basicPass 2 false tblEx availEx ratiosEx [0] (fun _ => [])).1 ("0.5") = [0] ∧
    (basicPass 2 false tblEx availEx ratiosEx [1]
        ((basicPass 2 false tblEx availEx ratiosEx [0] (fun _ => [])).1)).2
      = [[0, 1]] := by
  refine ⟨?_, by decide, by decide, by decide⟩
  intro V inst bs dl tbl avail ratios idxs f0 k
  rfl

/-- The mutable state of a `BalancedAspectRatioBatchSampler` instance.  Buckets
are keyed by the numeric value `float(key)`.  `origs` is `original_buckets`
(the per-key snapshot of captured indices), `cnt` is `_aspect_ratio_count`,
`curAvail` is `current_available_bucket_keys` and `exhausted` is
`exhausted_bucket_keys`. -/
structure BalState (V : Type) where
  buckets : V → List Nat
  origs : V → List Nat
  cnt : V → Nat
  curAvail : List V
  exhausted : List V

/-- `[k for k, v in self.ratio_nums_gt.items() if v >= 3000]`: the qualifying
keys, in quota-mapping iteration order. -/
def qualifyingKeys {V : Type} (rn : List (V × Nat)) : List V :=
  (rn.filter (fun p => decide (3000 ≤ p.2))).map (fun p => p.1)

/-- `self.ratio_nums_gt[k]`: the quota of key `k` (first matching entry; the
lookup is only reached for qualifying keys, which are present). -/
def quotaOf {V : Type} [DecidableEq V] (rn : List (V × Nat)) (k : V) : Nat :=
  ((rn.find? (fun p => decide (p.1 = k))).map (fun p => p.2)).getD 0

/-- The capture step of the balanced streaming loop: if the key's running
count is below its quota, append the index to the live bucket and to the
`original_buckets` snapshot and increment the count; otherwise do nothing. -/
def balCapture {V : Type} [DecidableEq V] (rn : List (V × Nat)) (k : V)
    (idx : Nat) (s : BalState V) : BalState V :=
  if s.cnt k < quotaOf rn k then
    { s with cnt := upd s.cnt k (s.cnt k + 1),
             buckets := upd s.buckets k (s.buckets k ++ [idx]),
             origs := upd s.origs k (s.origs k ++ [idx]) }
  else s

/-- The fairness-round swap: if `current_available_bucket_keys` is empty,
replace it by `exhausted_bucket_keys` and empty the latter. -/
def balSwap {V : Type} (s : BalState V) : BalState V :=
  match s.curAvail with
  | [] => { s with curAvail := s.exhausted, exhausted := [] }
  | _ :: _ => s

/-- The emission step of the balanced streaming loop: skip if the key is not
currently available; otherwise, if the key's bucket holds exactly
`batch_size` items, yield the `batch_size` prefix, delete it, append the key
to the exhausted set and remove it from the available set. -/
def balEmit {V : Type} [DecidableEq V] (bs : Nat) (k : V) (s : BalState V) :
    BalState V × Option (V × List Nat) :=
  if k ∈ s.curAvail then
    if (s.buckets k).length = bs then
      ({ s with buckets := upd s.buckets k ((s.buckets k).drop bs),
                exhausted := s.exhausted ++ [k],
                curAvail := s.curAvail.erase k },
       some (k, (s.buckets k).take bs))
    else (s, none)
  else (s, none)

/-- One per-index step of `BalancedAspectRatioBatchSampler.__iter__`: resolve
the key; if it is not a qualifying key, `continue` — skipping capture, the
fairness swap and emission alike; otherwise capture, then swap, then try to
emit.  The emitted batch is tagged with its key. -/
def balStep {V : Type} [LinearOrderedCommRing V] (bs : Nat) (tbl : Table V)
    (rn : List (V × Nat)) (ratios : Nat → V) (s : BalState V) (idx : Nat) :
    BalState V × Option (V × List Nat) :=
  let k := resolveKeyQ tbl (ratios idx)
  if k ∈ qualifyingKeys rn then balEmit bs k (balSwap (balCapture rn k idx s))
  else (s, none)

/-- The balanced streaming phase over an index stream. -/
def balStream {V : Type} [LinearOrderedCommRing V] (bs : Nat) (tbl : Table V)
    (rn : List (V × Nat)) (ratios : Nat → V) :
    List Nat → BalState V → BalState V × List (V × List Nat)
  | [], s => (s, [])
  | idx :: idxs, s =>
    let r := balStep bs tbl rn ratios s idx
    let rest := balStream bs tbl rn ratios idxs r.1
    (rest.1, r.2.toList ++ rest.2)

/-- The key drawn by `random.choice(self.all_available_keys)` at trailing
iteration `t`, with the randomness supplied by the oracle `pick` (reduced
modulo the list length; `choice` draws from the full qualifying key list,
never from the available subset). -/
def trailKey {V : Type} [Zero V] (allAvail : List V) (pick : Nat → Nat)
    (t : Nat) : V :=
  allAvail.getD (pick t % allAvail.length) 0

/-- One trailing-phase iteration: draw a key; if its bucket holds at least
`batch_size` items, yield the `batch_size` prefix and delete it, refilling
the bucket with a shuffled copy of the `original_buckets` snapshot if it
became empty; otherwise (bucket too short) refill the same way without
emitting.  The shuffle randomness is supplied by the oracle `shuf`. -/
def balTrailStep {V : Type} [DecidableEq V] [Zero V] (bs : Nat)
    (allAvail : List V) (pick : Nat → Nat) (shuf : Nat → List Nat → List Nat)
    (t : Nat) (s : BalState V) : BalState V × Option (V × List Nat) :=
  if bs ≤ (s.buckets (trailKey allAvail pick t)).length then
    (if (s.buckets (trailKey allAvail pick t)).drop bs = []
     then { s with
              buckets := upd s.buckets (trailKey allAvail pick t)
                (shuf t (s.origs (trailKey allAvail pick t))) }
     else { s with
              buckets := upd s.buckets (trailKey allAvail pick t)
                ((s.buckets (trailKey allAvail pick t)).drop bs) },
     some (trailKey allAvail pick t,
       (s.buckets (trailKey allAvail pick t)).take bs))
  else
    ({ s with
         buckets := upd s.buckets (trailKey allAvail pick t)
           (shuf t (s.origs (trailKey allAvail pick t))) },
     none)

/-- The trailing phase: `for _ in range(n)` iterations, threading the
iteration counter `t` into the randomness oracles. -/
def balTrail {V : Type} [DecidableEq V] [Zero V] (bs : Nat) (allAvail : List V)
    (pick : Nat → Nat) (shuf : Nat → List Nat → List Nat) :
    Nat → Nat → BalState V → BalState V × List (V × List Nat)
  | 0, _, s => (s, [])
  | n + 1, t, s =>
    let r := balTrailStep bs allAvail pick shuf t s
    let rest := balTrail bs allAvail pick shuf n (t + 1) r.1
    (rest.1, r.2.toList ++ rest.2)

/-- The constructor state of `BalancedAspectRatioBatchSampler`: empty buckets,
snapshots and counts; `current_available_bucket_keys` starts as the
qualifying key list and `exhausted_bucket_keys` empty. -/
def balInit {V : Type} (rn : List (V × Nat)) : BalState V :=
  { buckets := fun _ => [], origs := fun _ => [], cnt := fun _ => 0,
    curAvail := qualifyingKeys rn, exhausted := [] }

/-- One full run of `BalancedAspectRatioBatchSampler.__iter__`: the streaming
phase from the constructor state, then `total_batches - i` trailing
iterations, where `total_batches = len(sampler) // batch_size` and `i` is the
number of streaming emissions. -/
def balancedPass {V : Type} [LinearOrderedCommRing V] (bs : Nat) (tbl : Table V)
    (rn : List (V × Nat)) (ratios : Nat → V) (pick : Nat → Nat)
    (shuf : Nat → List Nat → List Nat) (idxs : List Nat) :
    BalState V × List (V × List Nat) :=
  let r := balStream bs tbl rn ratios idxs (balInit rn)
  let rest := balTrail bs (qualifyingKeys rn) pick shuf
    (idxs.length / bs - r.2.length) 0 r.1
  (rest.1, r.2 ++ rest.2)

/-- The observable output of a balanced run: the batches in emission order. -/
def balancedRun {V : Type} [LinearOrderedCommRing V] (bs : Nat) (tbl : Table V)
    (rn : List (V × Nat)) (ratios : Nat → V) (pick : Nat → Nat)
    (shuf : Nat → List Nat → List Nat) (idxs : List Nat) : List (List Nat) :=
  (balancedPass bs tbl rn ratios pick shuf idxs).2.map (fun p => p.2)

lemma balCapture_curAvail {V : Type} [DecidableEq V] (rn : List (V × Nat))
    (k : V) (idx : Nat) (s : BalState V) :
    (balCapture rn k idx s).curAvail = s.curAvail := by
  unfold balCapture
  split <;> rfl

lemma balCapture_exhausted {V : Type} [DecidableEq V] (rn : List (V × Nat))
    (k : V) (idx : Nat) (s : BalState V) :
    (balCapture rn k idx s).exhausted = s.exhausted := by
  unfold balCapture
  split <;> rfl

lemma balCapture_origs_self {V : Type} [DecidableEq V] (rn : List (V × Nat))
    (k : V) (idx : Nat) (s : BalState V) (k2 : V) (h : k2 ≠ k) :
    (balCapture rn k idx s).origs k2 = s.origs k2 := by
  unfold balCapture
  split
  · exact upd_ne _ _ _ _ h
  · rfl

lemma balSwap_buckets {V : Type} (s : BalState V) :
    (balSwap s).buckets = s.buckets := by
  unfold balSwap
  split <;> rfl

lemma balSwap_cnt {V : Type} (s : BalState V) : (balSwap s).cnt = s.cnt := by
  unfold balSwap
  split <;> rfl

lemma balEmit_cnt {V : Type} [DecidableEq V] (bs : Nat) (k : V) (s : BalState V) :
    (balEmit bs k s).1.cnt = s.cnt := by
  unfold balEmit
  split
  · split <;> rfl
  · rfl

lemma balCapture_cnt {V : Type} [DecidableEq V] (rn : List (V × Nat)) (k : V)
    (idx : Nat) (s : BalState V) (k2 : V) :
    (balCapture rn k idx s).cnt k2 ≤ quotaOf rn k2
      ∨ (balCapture rn k idx s).cnt k2 = s.cnt k2 := by
  unfold balCapture
  by_cases hc : s.cnt k < quotaOf rn k
  · rw [if_pos hc]
    by_cases hk : k2 = k
    · subst hk
      left
      simp only [upd_same]
      omega
    · right
      exact upd_ne _ _ _ _ hk
  · rw [if_neg hc]
    right
    rfl

/-- The per-index step changes a key's running count only by capturing below
quota: afterwards the count is within quota or unchanged. -/
lemma balStep_cnt {V : Type} [LinearOrderedCommRing V] (bs : Nat) (tbl : Table V)
    (rn : List (V × Nat)) (ratios : Nat → V) (s : BalState V) (idx : Nat)
    (k2 : V) :
    (balStep bs tbl rn ratios s idx).1.cnt k2 ≤ quotaOf rn k2
      ∨ (balStep bs tbl rn ratios s idx).1.cnt k2 = s.cnt k2 := by
  unfold balStep
  by_cases hq : resolveKeyQ tbl (ratios idx) ∈ qualifyingKeys rn
  · rw [if_pos hq]
    rw [balEmit_cnt, balSwap_cnt]
    exact balCapture_cnt rn _ idx s k2
  · rw [if_neg hq]
    right
    rfl

lemma balStream_cnt_le {V : Type} [LinearOrderedCommRing V] (bs : Nat)
    (tbl : Table V) (rn : List (V × Nat)) (ratios : Nat → V) :
    ∀ (idxs : List Nat) (s : BalState V),
      (∀ k, s.cnt k ≤ quotaOf rn k) →
      ∀ k, (balStream bs tbl rn ratios idxs s).1.cnt k ≤ quotaOf rn k := by
  intro idxs
  induction idxs with
  | nil =>
    intro s hs k
    exact hs k
  | cons idx idxs ih =>
    intro s hs k
    refine ih _ ?_ k
    intro k2
    rcases balStep_cnt bs tbl rn ratios s idx k2 with h | h
    · exact h
    · rw [h]
      exact hs k2

lemma balTrailStep_cnt {V : Type} [DecidableEq V] [Zero V] (bs : Nat)
    (allAvail : List V) (pick : Nat → Nat) (shuf : Nat → List Nat → List Nat)
    (t : Nat) (s : BalState V) :
    (balTrailStep bs allAvail pick shuf t s).1.cnt = s.cnt := by
  unfold balTrailStep
  split
  · split <;> rfl
  · rfl

lemma balTrail_cnt {V : Type} [DecidableEq V] [Zero V] (bs : Nat)
    (allAvail : List V) (pick : Nat → Nat) (shuf : Nat → List Nat → List Nat) :
    ∀ (n t : Nat) (s : BalState V),
      (balTrail bs allAvail pick shuf n t s).1.cnt = s.cnt := by
  intro n
  induction n with
  | zero =>
    intro t s
    rfl
  | succ n ih =>
    intro t s
    show (balTrail bs allAvail pick shuf n (t + 1)
        (balTrailStep bs allAvail pick shuf t s).1).1.cnt = s.cnt
    rw [ih, balTrailStep_cnt]

/-- Total number of indices currently held by the buckets of the keys in `S`. -/
def sumLens {V : Type} (S : List V) (f : V → List Nat) : Nat :=
  (S.map (fun k => (f k).length)).sum

lemma sumLens_congr {V : Type} (S : List V) (f g : V → List Nat)
    (h : ∀ k ∈ S, f k = g k) : sumLens S f = sumLens S g := by
  unfold sumLens
  congr 1
  induction S with
  | nil => rfl
  | cons a S ih =>
    simp only [List.map_cons]
    rw [h a (List.mem_cons_self _ _), ih (fun k hk => h k (List.mem_cons_of_mem _ hk))]

lemma sumLens_upd {V : Type} [DecidableEq V] :
    ∀ (S : List V), S.Nodup → ∀ (f : V → List Nat) (k : V) (v : List Nat),
      k ∈ S → sumLens S (upd f k v) + (f k).length = sumLens S f + v.length := by
  intro S
  induction S with
  | nil =>
    intro _ f k v hk
    simp at hk
  | cons a S ih =>
    intro hnd f k v hk
    simp only [List.nodup_cons] at hnd
    rcases List.mem_cons.mp hk with rfl | hk2
    · have hrest : sumLens S (upd f k v) = sumLens S f := by
        refine sumLens_congr S _ _ ?_
        intro x hx
        refine upd_ne f k v x ?_
        rintro rfl
        exact hnd.1 hx
      simp only [sumLens, List.map_cons, List.sum_cons] at hrest ⊢
      rw [upd_same]
      omega
    · have ha : upd f k v a = f a := by
        refine upd_ne f k v a ?_
        rintro rfl
        exact hnd.1 hk2
      have hind := ih hnd.2 f k v hk2
      simp only [sumLens, List.map_cons, List.sum_cons] at hind ⊢
      rw [ha]
      omega

/-- Budget of one balanced streaming step: an emission costs `batch_size`
bucket items and a capture adds at most one, so
`bs·(emissions) + (bucket mass)` grows by at most one per pulled index. -/
lemma balStep_budget {V : Type} [LinearOrderedCommRing V] (bs : Nat)
    (tbl : Table V) (rn : List (V × Nat)) (ratios : Nat → V)
    (hS : (qualifyingKeys rn).Nodup) (s : BalState V) (idx : Nat) :
    bs * (balStep bs tbl rn ratios s idx).2.toList.length
      + sumLens (qualifyingKeys rn) (balStep bs tbl rn ratios s idx).1.buckets
      ≤ sumLens (qualifyingKeys rn) s.buckets + 1 := by
  unfold balStep
  by_cases hq : resolveKeyQ tbl (ratios idx) ∈ qualifyingKeys rn
  · rw [if_pos hq]
    have hcap : sumLens (qualifyingKeys rn)
        (balCapture rn (resolveKeyQ tbl (ratios idx)) idx s).buckets
        ≤ sumLens (qualifyingKeys rn) s.buckets + 1 := by
      unfold balCapture
      by_cases hc : s.cnt (resolveKeyQ tbl (ratios idx))
          < quotaOf rn (resolveKeyQ tbl (ratios idx))
      · rw [if_pos hc]
        have := sumLens_upd (qualifyingKeys rn) hS s.buckets
          (resolveKeyQ tbl (ratios idx))
          (s.buckets (resolveKeyQ tbl (ratios idx)) ++ [idx]) hq
        simp only [List.length_append, List.length_cons, List.length_nil] at this
        dsimp only
        omega
      · rw [if_neg hc]
        omega
    set s2 := balSwap (balCapture rn (resolveKeyQ tbl (ratios idx)) idx s)
      with hs2
    have hs2b : sumLens (qualifyingKeys rn) s2.buckets
        ≤ sumLens (qualifyingKeys rn) s.buckets + 1 := by
      rw [hs2, balSwap_buckets]
      exact hcap
    unfold balEmit
    by_cases hav : resolveKeyQ tbl (ratios idx) ∈ s2.curAvail
    · rw [if_pos hav]
      by_cases hfull : (s2.buckets (resolveKeyQ tbl (ratios idx))).length = bs
      · rw [if_pos hfull]
        have hupd := sumLens_upd (qualifyingKeys rn) hS s2.buckets
          (resolveKeyQ tbl (ratios idx))
          ((s2.buckets (resolveKeyQ tbl (ratios idx))).drop bs) hq
        rw [List.length_drop, hfull] at hupd
        simp only [Option.toList_some, List.length_singleton]
        omega
      · rw [if_neg hfull]
        simp only [Option.toList_none, List.length_nil, Nat.mul_zero, Nat.zero_add]
        exact hs2b
    · rw [if_neg hav]
      simp only [Option.toList_none, List.length_nil, Nat.mul_zero, Nat.zero_add]
      exact hs2b
  · rw [if_neg hq]
    simp only [Option.toList_none, List.length_nil, Nat.mul_zero, Nat.zero_add]
    omega

lemma balStream_budget {V : Type} [LinearOrderedCommRing V] (bs : Nat)
    (tbl : Table V) (rn : List (V × Nat)) (ratios : Nat → V)
    (hS : (qualifyingKeys rn).Nodup) :
    ∀ (idxs : List Nat) (s : BalState V),
      bs * (balStream bs tbl rn ratios idxs s).2.length
        + sumLens (qualifyingKeys rn) (balStream bs tbl rn ratios idxs s).1.buckets
        ≤ sumLens (qualifyingKeys rn) s.buckets + idxs.length := by
  intro idxs
  induction idxs with
  | nil =>
    intro s
    simp [balStream]
  | cons idx idxs ih =>
    intro s
    have hstep := balStep_budget bs tbl rn ratios hS s idx
    have hih := ih (balStep bs tbl rn ratios s idx).1
    have hout : (balStream bs tbl rn ratios (idx :: idxs) s).2.length
        = (balStep bs tbl rn ratios s idx).2.toList.length
          + (balStream bs tbl rn ratios idxs
              (balStep bs tbl rn ratios s idx).1).2.length := by
      show (((balStep bs tbl rn ratios s idx).2.toList
          ++ (balStream bs tbl rn ratios idxs
              (balStep bs tbl rn ratios s idx).1).2)).length = _
      exact List.length_append _ _
    have hbk : (balStream bs tbl rn ratios (idx :: idxs) s).1
        = (balStream bs tbl rn ratios idxs (balStep bs tbl rn ratios s idx).1).1 :=
      rfl
    rw [hout, hbk, Nat.mul_add]
    have hlen : (idx :: idxs).length = idxs.length + 1 := rfl
    rw [hlen]
    generalize hA : bs * (balStep bs tbl rn ratios s idx).2.toList.length = A at *
    generalize hB : bs * (balStream bs tbl rn ratios idxs
        (balStep bs tbl rn ratios s idx).1).2.length = B at *
    omega

lemma balTrail_len {V : Type} [DecidableEq V] [Zero V] (bs : Nat)
    (allAvail : List V) (pick : Nat → Nat) (shuf : Nat → List Nat → List Nat) :
    ∀ (n t : Nat) (s : BalState V),
      (balTrail bs allAvail pick shuf n t s).2.length ≤ n := by
  intro n
  induction n with
  | zero =>
    intro t s
    exact Nat.le_refl 0
  | succ n ih =>
    intro t s
    show ((balTrailStep bs allAvail pick shuf t s).2.toList
        ++ (balTrail bs allAvail pick shuf n (t + 1)
            (balTrailStep bs allAvail pick shuf t s).1).2).length ≤ n + 1
    rw [List.length_append]
    have h1 : (balTrailStep bs allAvail pick shuf t s).2.toList.length ≤ 1 := by
      cases (balTrailStep bs allAvail pick shuf t s).2 <;> simp
    have h2 := ih (t + 1) (balTrailStep bs allAvail pick shuf t s).1
    omega

lemma getD_mem {α : Type} : ∀ (l : List α) (n : Nat) (d : α), n < l.length →
    l.getD n d ∈ l := by
  intro l
  induction l with
  | nil =>
    intro n d h
    simp at h
  | cons a l ih =>
    intro n d h
    cases n with
    | zero => exact List.mem_cons_self _ _
    | succ n =>
      simp only [List.getD_cons_succ]
      refine List.mem_cons_of_mem _ (ih n d ?_)
      simp only [List.length_cons] at h
      omega

/-- Two-key table for the balanced examples (values scaled by 100). -/
def tblB : Table ℤ := [("0.5", 50), ("1.0", 100)]

/-- Quota mapping for the C5 example: only key 0.5 qualifies. -/
def rnB : List (ℤ × Nat) := [(50, 3000)]

/-- Ratio stream `[0.5, 0.5, 1.0, 1.0]` (scaled) for the C5 example. -/
def ratiosB : Nat → ℤ := fun n => [(50 : ℤ), 50, 100, 100].getD n 0

/-- Quota mapping for the C9 example: both keys qualify. -/
def rnC9 : List (ℤ × Nat) := [(50, 3000), (100, 3000)]

/-- Constant ratio stream (every index has ratio 0.5) for the C9 example. -/
def ratiosC9 : Nat → ℤ := fun _ => (50 : ℤ)

/-- Table for the C7 counterexample: keys "1.0" and "9.0". -/
def tblC7 : Table ℤ := [("1.0", 100), ("9.0", 900)]

/-- Quota mapping for the C7 counterexample: only key 1.0 qualifies. -/
def rnC7 : List (ℤ × Nat) := [(100, 3000)]

/-- Ratio stream for the C7 counterexample: index 0 has ratio 1.0, all later
indices have ratio 9.0 (resolving to the non-qualifying key 9.0). -/
def ratiosC7 : Nat → ℤ := fun n => if n = 0 then 100 else 900

lemma sumLens_nil {V : Type} (S : List V) : sumLens S (fun _ => []) = 0 := by
  induction S with
  | nil => rfl
  | cons a S ih =>
    simp only [sumLens, List.map_cons, List.sum_cons, List.length_nil,
      Nat.zero_add]
    simp only [sumLens] at ih
    exact ih

lemma balSwap_empty {V : Type} (s : BalState V) (h : s.curAvail = []) :
    balSwap s = { s with curAvail := s.exhausted, exhausted := [] } := by
  unfold balSwap
  split
  · rfl
  · simp_all

/-- C5: the run of the balanced sampler emits at most
`floor(total_source_length / batch_size)` batches in total; each trailing draw
emits (the drawn key's `batch_size` prefix) exactly when the drawn bucket
holds at least `batch_size` items and otherwise refills the bucket from the
shuffled snapshot without emitting; the drawn key always comes from the full
qualifying key list; and the run can emit strictly fewer batches than the
target (concrete example: 1 emitted batch against a target of 2).  The
`random.choice` and `random.shuffle` randomness is supplied by the injected
oracles `pick` and `shuf`, which range over the full qualifying key list and
over permutations respectively. -/
theorem claim_C5_trailing_budget {V : Type} [LinearOrderedCommRing V] (bs : Nat)
    (tbl : Table V) (rn : List (V × Nat)) (ratios : Nat → V) (pick : Nat → Nat)
    (shuf : Nat → List Nat → List Nat) (idxs : List Nat) (hbs : 0 < bs)
    (hS : (qualifyingKeys rn).Nodup) :
    (balancedRun bs tbl rn ratios pick shuf idxs).length ≤ idxs.length / bs ∧
    (∀ (t : Nat) (s : BalState V),
      (balTrailStep bs (qualifyingKeys rn) pick shuf t s).2
        = if bs ≤ (s.buckets (trailKey (qualifyingKeys rn) pick t)).length
          then some (trailKey (qualifyingKeys rn) pick t,
              (s.buckets (trailKey (qualifyingKeys rn) pick t)).take bs)
          else none) ∧
    (∀ (t : Nat) (s : BalState V),
      (s.buckets (trailKey (qualifyingKeys rn) pick t)).length < bs →
      (balTrailStep bs (qualifyingKeys rn) pick shuf t s).1.buckets
          (trailKey (qualifyingKeys rn) pick t)
        = shuf t (s.origs (trailKey (qualifyingKeys rn) pick t))) ∧
    (∀ t : Nat, qualifyingKeys rn ≠ [] →
      trailKey (qualifyingKeys rn) pick t ∈ qualifyingKeys rn) ∧
    (balancedRun 2 tblB rnB ratiosB (fun _ => 0) (fun _ l => l)
        [0, 1, 2, 3]).length < [0, 1, 2, 3].length / 2 := by
  refine ⟨?_, ?_, ?_, ?_, by decide⟩
  · have hlen : (balancedRun bs tbl rn ratios pick shuf idxs).length
        = (balStream bs tbl rn ratios idxs (balInit rn)).2.length
          + (balTrail bs (qualifyingKeys rn) pick shuf
              (idxs.length / bs
                - (balStream bs tbl rn ratios idxs (balInit rn)).2.length)
              0 (balStream bs tbl rn ratios idxs (balInit rn)).1).2.length := by
      simp [balancedRun, balancedPass]
    have hbudget := balStream_budget bs tbl rn ratios hS idxs (balInit rn)
    have hinit : sumLens (qualifyingKeys rn) (balInit rn).buckets = 0 :=
      sumLens_nil _
    rw [hinit] at hbudget
    have hi : (balStream bs tbl rn ratios idxs (balInit rn)).2.length
        ≤ idxs.length / bs := by
      rw [Nat.le_div_iff_mul_le hbs, Nat.mul_comm]
      omega
    have ht := balTrail_len bs (qualifyingKeys rn) pick shuf
      (idxs.length / bs - (balStream bs tbl rn ratios idxs (balInit rn)).2.length)
      0 (balStream bs tbl rn ratios idxs (balInit rn)).1
    omega
  · intro t s
    by_cases h : bs ≤ (s.buckets (trailKey (qualifyingKeys rn) pick t)).length
    · simp [balTrailStep, h]
    · simp [balTrailStep, h]
  · intro t s h
    have hne : ¬ bs ≤ (s.buckets (trailKey (qualifyingKeys rn) pick t)).length :=
      not_le.mpr h
    simp [balTrailStep, hne, upd_same]
  · intro t hne
    have hpos : 0 < (qualifyingKeys rn).length := List.length_pos.mpr hne
    exact getD_mem _ _ _ (Nat.mod_lt _ hpos)

/-- Witness for C5 at the concrete example (`batch_size = 2`, one qualifying
key with ratios `[0.5, 0.5, 1.0, 1.0]`). -/
theorem claim_C5_trailing_budget_witness :
    (balancedRun 2 tblB rnB ratiosB (fun _ => 0) (fun _ l => l)
        [0, 1, 2, 3]).length ≤ [0, 1, 2, 3].length / 2 ∧
    (balancedRun 2 tblB rnB ratiosB (fun _ => 0) (fun _ l => l)
        [0, 1, 2, 3]).length < [0, 1, 2, 3].length / 2 :=
  ⟨(claim_C5_trailing_budget 2 tblB rnB ratiosB (fun _ => 0) (fun _ l => l)
      [0, 1, 2, 3] (by decide) (by decide)).1,
   (claim_C5_trailing_budget 2 tblB rnB ratiosB (fun _ => 0) (fun _ l => l)
      [0, 1, 2, 3] (by decide) (by decide)).2.2.2.2⟩

/-- C6: a key's running capture count never exceeds its configured quota.
Per step, the count afterwards is within quota or unchanged (an index is
captured, and the count incremented, only while strictly below quota); from
the constructor state every reachable streaming state — the quantification
over all finite streams covers the state after every per-index step — keeps
every count within quota; the trailing phase never touches the counts. -/
theorem claim_C6_quota_invariant {V : Type} [LinearOrderedCommRing V] (bs : Nat)
    (tbl : Table V) (rn : List (V × Nat)) (ratios : Nat → V) (pick : Nat → Nat)
    (shuf : Nat → List Nat → List Nat) (allAvail : List V) :
    (∀ (s : BalState V) (idx : Nat) (k : V),
      (balStep bs tbl rn ratios s idx).1.cnt k ≤ quotaOf rn k
        ∨ (balStep bs tbl rn ratios s idx).1.cnt k = s.cnt k) ∧
    (∀ (idxs : List Nat) (k : V),
      (balStream bs tbl rn ratios idxs (balInit rn)).1.cnt k ≤ quotaOf rn k) ∧
    (∀ (n t : Nat) (s : BalState V),
      (balTrail bs allAvail pick shuf n t s).1.cnt = s.cnt) := by
  refine ⟨fun s idx k => balStep_cnt bs tbl rn ratios s idx k, ?_,
    fun n t s => balTrail_cnt bs allAvail pick shuf n t s⟩
  intro idxs k
  refine balStream_cnt_le bs tbl rn ratios idxs (balInit rn) ?_ k
  intro k2
  exact Nat.zero_le _

/-- C7 counterexample: with table keys 1.0 and 9.0, a quota mapping in which
only key 1.0 qualifies, and `batch_size = 1`: after index 0 (ratio 1.0) is
emitted, the available set is empty and the exhausted set is `[1.0]`.
Pulling index 1, whose ratio 9.0 resolves to the non-qualifying key 9.0, hits
`continue` before the swap line, so the swap is NOT performed: the available
set stays empty and the exhausted set stays `[1.0]` (had the swap been
performed on every pulled index, as the claim states, the sets would have
become `[1.0]` and `[]`). -/
theorem claim_C7_counterexample :
    resolveKeyQ tblC7 (ratiosC7 1) = 900 ∧
    (900 : ℤ) ∉ qualifyingKeys rnC7 ∧
    (balStream 1 tblC7 rnC7 ratiosC7 [0] (balInit rnC7)).1.curAvail = [] ∧
    (balStream 1 tblC7 rnC7 ratiosC7 [0] (balInit rnC7)).1.exhausted = [100] ∧
    (balStream 1 tblC7 rnC7 ratiosC7 [0, 1] (balInit rnC7)).1.curAvail = [] ∧
    (balStream 1 tblC7 rnC7 ratiosC7 [0, 1] (balInit rnC7)).1.exhausted
      = [100] := by
  exact ⟨by decide, by decide, by decide, by decide, by decide, by decide⟩

/-- C7 (amended): the fairness-round swap is performed on every pulled index
whose resolved key is a qualifying key — an index with a non-qualifying key
skips the whole loop body, the swap included — and for qualifying-key indices
it is performed regardless of whether the key's capture count has reached its
quota: the capture step never touches the two key sets, and when the
available set is empty the state right after the swap point has the former
exhausted set as its available set and an empty exhausted set, with no
assumption on counts or quotas. -/
theorem claim_C7_swap_scope {V : Type} [LinearOrderedCommRing V] (bs : Nat)
    (tbl : Table V) (rn : List (V × Nat)) (ratios : Nat → V) (s : BalState V)
    (idx : Nat) :
    (resolveKeyQ tbl (ratios idx) ∉ qualifyingKeys rn →
      balStep bs tbl rn ratios s idx = (s, none)) ∧
    (resolveKeyQ tbl (ratios idx) ∈ qualifyingKeys rn →
      balStep bs tbl rn ratios s idx
        = balEmit bs (resolveKeyQ tbl (ratios idx))
            (balSwap (balCapture rn (resolveKeyQ tbl (ratios idx)) idx s))) ∧
    ((balCapture rn (resolveKeyQ tbl (ratios idx)) idx s).curAvail
      = s.curAvail) ∧
    ((balCapture rn (resolveKeyQ tbl (ratios idx)) idx s).exhausted
      = s.exhausted) ∧
    (s.curAvail = [] →
      (balSwap (balCapture rn (resolveKeyQ tbl (ratios idx)) idx s)).curAvail
          = s.exhausted ∧
      (balSwap (balCapture rn (resolveKeyQ tbl (ratios idx)) idx s)).exhausted
          = []) := by
  refine ⟨?_, ?_, balCapture_curAvail rn _ idx s, balCapture_exhausted rn _ idx s,
    ?_⟩
  · intro h
    simp [balStep, h]
  · intro h
    simp [balStep, h]
  · intro h
    have hc : (balCapture rn (resolveKeyQ tbl (ratios idx)) idx s).curAvail
        = [] := by
      rw [balCapture_curAvail]
      exact h
    rw [balSwap_empty _ hc]
    exact ⟨balCapture_exhausted rn _ idx s, rfl⟩

lemma balStep_grown {V : Type} [LinearOrderedCommRing V] (bs : Nat)
    (tbl : Table V) (rn : List (V × Nat)) (ratios : Nat → V) (k : V)
    (s : BalState V) (idx : Nat) (h : bs < (s.buckets k).length) :
    (∀ p, (balStep bs tbl rn ratios s idx).2 = some p → p.1 ≠ k) ∧
    bs < ((balStep bs tbl rn ratios s idx).1.buckets k).length := by
  unfold balStep
  by_cases hq : resolveKeyQ tbl (ratios idx) ∈ qualifyingKeys rn
  · rw [if_pos hq]
    have hgrow : bs < ((balSwap (balCapture rn (resolveKeyQ tbl (ratios idx))
        idx s)).buckets k).length := by
      rw [balSwap_buckets]
      unfold balCapture
      by_cases hc : s.cnt (resolveKeyQ tbl (ratios idx))
          < quotaOf rn (resolveKeyQ tbl (ratios idx))
      · rw [if_pos hc]
        dsimp only
        by_cases hk : k = resolveKeyQ tbl (ratios idx)
        · rw [hk, upd_same]
          rw [hk] at h
          simp only [List.length_append, List.length_cons, List.length_nil]
          omega
        · rw [upd_ne _ _ _ _ hk]
          exact h
      · rw [if_neg hc]
        exact h
    unfold balEmit
    by_cases hav : resolveKeyQ tbl (ratios idx)
        ∈ (balSwap (balCapture rn (resolveKeyQ tbl (ratios idx)) idx s)).curAvail
    · rw [if_pos hav]
      by_cases hfull : ((balSwap (balCapture rn (resolveKeyQ tbl (ratios idx))
          idx s)).buckets (resolveKeyQ tbl (ratios idx))).length = bs
      · rw [if_pos hfull]
        have hkne : resolveKeyQ tbl (ratios idx) ≠ k := by
          rintro rfl
          omega
        constructor
        · intro p hp
          have : p = (resolveKeyQ tbl (ratios idx),
              ((balSwap (balCapture rn (resolveKeyQ tbl (ratios idx)) idx
                s)).buckets (resolveKeyQ tbl (ratios idx))).take bs) := by
            simpa using hp.symm
          rw [this]
          exact hkne
        · dsimp only
          rw [upd_ne _ _ _ _ (fun h2 => hkne h2.symm)]
          exact hgrow
      · rw [if_neg hfull]
        exact ⟨fun p hp => by simp at hp, hgrow⟩
    · rw [if_neg hav]
      exact ⟨fun p hp => by simp at hp, hgrow⟩
  · rw [if_neg hq]
    exact ⟨fun p hp => by simp at hp, h⟩

lemma balStream_grown {V : Type} [LinearOrderedCommRing V] (bs : Nat)
    (tbl : Table V) (rn : List (V × Nat)) (ratios : Nat → V) (k : V) :
    ∀ (idxs : List Nat) (s : BalState V), bs < (s.buckets k).length →
      ((balStream bs tbl rn ratios idxs s).2.filter
          (fun p => decide (p.1 = k)) = []) ∧
      bs < ((balStream bs tbl rn ratios idxs s).1.buckets k).length := by
  intro idxs
  induction idxs with
  | nil =>
    intro s h
    exact ⟨rfl, h⟩
  | cons idx idxs ih =>
    intro s h
    rcases balStep_grown bs tbl rn ratios k s idx h with ⟨hnk, hgrow⟩
    rcases ih (balStep bs tbl rn ratios s idx).1 hgrow with ⟨hrest, hfin⟩
    constructor
    · show ((balStep bs tbl rn ratios s idx).2.toList
          ++ (balStream bs tbl rn ratios idxs
              (balStep bs tbl rn ratios s idx).1).2).filter
          (fun p => decide (p.1 = k)) = []
      rw [List.filter_append, hrest, List.append_nil]
      cases he : (balStep bs tbl rn ratios s idx).2 with
      | none => rfl
      | some p =>
        have := hnk p he
        simp [this]
    · exact hfin

/-- C9: in the balanced streaming phase a batch for a key is emitted only at
the moment the key's bucket holds exactly `batch_size` items (the emitted
batch has length `batch_size` and the bucket is left empty); once a bucket's
length exceeds `batch_size` — which capture can cause while the key sits in
the exhausted set, since capture keeps appending below quota — the key emits
no further streaming batches, and its bucket only keeps growing.  Concretely
(`batch_size = 1`, both keys qualifying, all ratios 0.5): the stream
`[0,1,2,3]` emits only `(0.5, [0])`, after which the 0.5 bucket grows to
`[1,2,3]` of length 3 and stays starved. -/
theorem claim_C9_overfull_bucket_starves {V : Type} [LinearOrderedCommRing V]
    (bs : Nat) (tbl : Table V) (rn : List (V × Nat)) (ratios : Nat → V) (k : V)
    (idxs : List Nat) (s : BalState V) (hk : bs < (s.buckets k).length) :
    ((balStream bs tbl rn ratios idxs s).2.filter
        (fun p => decide (p.1 = k)) = []) ∧
    bs < ((balStream bs tbl rn ratios idxs s).1.buckets k).length ∧
    (∀ (s2 : BalState V) (idx : Nat) (p : V × List Nat),
      (balStep bs tbl rn ratios s2 idx).2 = some p →
      p.2.length = bs ∧ (balStep bs tbl rn ratios s2 idx).1.buckets p.1 = []) ∧
    (balStream 1 tblB rnC9 ratiosC9 [0, 1, 2, 3] (balInit rnC9)).2
      = [(50, [0])] ∧
    ((balStream 1 tblB rnC9 ratiosC9 [0, 1, 2, 3]
        (balInit rnC9)).1.buckets 50).length = 3 := by
  rcases balStream_grown bs tbl rn ratios k idxs s hk with ⟨h1, h2⟩
  refine ⟨h1, h2, ?_, by decide, by decide⟩
  intro s2 idx p hp
  unfold balStep at hp ⊢
  by_cases hq : resolveKeyQ tbl (ratios idx) ∈ qualifyingKeys rn
  · rw [if_pos hq] at hp ⊢
    unfold balEmit at hp ⊢
    by_cases hav : resolveKeyQ tbl (ratios idx)
        ∈ (balSwap (balCapture rn (resolveKeyQ tbl (ratios idx)) idx
            s2)).curAvail
    · rw [if_pos hav] at hp ⊢
      by_cases hfull : ((balSwap (balCapture rn (resolveKeyQ tbl (ratios idx))
          idx s2)).buckets (resolveKeyQ tbl (ratios idx))).length = bs
      · rw [if_pos hfull] at hp ⊢
        have hpe : p = (resolveKeyQ tbl (ratios idx),
            ((balSwap (balCapture rn (resolveKeyQ tbl (ratios idx)) idx
              s2)).buckets (resolveKeyQ tbl (ratios idx))).take bs) := by
          simpa using hp.symm
        subst hpe
        constructor
        · simp only [List.length_take]
          omega
        · dsimp only
          rw [upd_same]
          have : (((balSwap (balCapture rn (resolveKeyQ tbl (ratios idx)) idx
              s2)).buckets (resolveKeyQ tbl (ratios idx))).drop bs).length
              = 0 := by
            rw [List.length_drop, hfull]
            omega
          exact List.eq_nil_of_length_eq_zero this
      · rw [if_neg hfull] at hp
        simp at hp
    · rw [if_neg hav] at hp
      simp at hp
  · rw [if_neg hq] at hp
    simp at hp

/-- Witness for C9: the concrete grown state (bucket of key 0.5 holding
`[1, 2]` after stream `[0, 1, 2]`) emits nothing for that key on a further
index and keeps growing. -/
theorem claim_C9_overfull_bucket_starves_witness :
    ((balStream 1 tblB rnC9 ratiosC9 [3]
        (balStream 1 tblB rnC9 ratiosC9 [0, 1, 2] (balInit rnC9)).1).2.filter
        (fun p => decide (p.1 = (50 : ℤ))) = []) ∧
    1 < ((balStream 1 tblB rnC9 ratiosC9 [3]
        (balStream 1 tblB rnC9 ratiosC9 [0, 1, 2]
          (balInit rnC9)).1).1.buckets 50).length ∧
    (∀ (s2 : BalState ℤ) (idx : Nat) (p : ℤ × List Nat),
      (balStep 1 tblB rnC9 ratiosC9 s2 idx).2 = some p →
      p.2.length = 1 ∧ (balStep 1 tblB rnC9 ratiosC9 s2 idx).1.buckets p.1
        = []) ∧
    (balStream 1 tblB rnC9 ratiosC9 [0, 1, 2, 3] (balInit rnC9)).2
      = [(50, [0])] ∧
    ((balStream 1 tblB rnC9 ratiosC9 [0, 1, 2, 3]
        (balInit rnC9)).1.buckets 50).length = 3 :=
  claim_C9_overfull_bucket_starves 1 tblB rnC9 ratiosC9 50 [3]
    (balStream 1 tblB rnC9 ratiosC9 [0, 1, 2] (balInit rnC9)).1 (by decide)

/-- A concrete trailing-phase state for the C10 witness: the 0.5 bucket holds
the single index 5 while the snapshot for 0.5 is `[8, 9]`. -/
def c10State : BalState ℤ :=
  { buckets := upd (fun _ => []) 50 [5],
    origs := upd (fun _ => []) 50 [8, 9],
    cnt := fun _ => 0, curAvail := [], exhausted := [] }

/-- C10: in the trailing phase, when the drawn key's bucket holds fewer than
`batch_size` items (at least one included), no batch is emitted and the
bucket is replaced wholesale by the shuffled copy of the key's
`original_buckets` snapshot: the refilled bucket is exactly the shuffle of
the snapshot — independent of the partial bucket's contents — and (the
shuffle being a permutation) every index in the refilled bucket comes from
the snapshot, so the partial bucket's leftover indices are discarded, not
carried over. -/
theorem claim_C10_refill_discards_partial {V : Type} [LinearOrderedCommRing V]
    (bs : Nat) (allAvail : List V) (pick : Nat → Nat)
    (shuf : Nat → List Nat → List Nat) (t : Nat) (s : BalState V)
    (hp : ∀ l, (shuf t l).Perm l)
    (_hpos : 0 < (s.buckets (trailKey allAvail pick t)).length)
    (hshort : (s.buckets (trailKey allAvail pick t)).length < bs) :
    (balTrailStep bs allAvail pick shuf t s).2 = none ∧
    (balTrailStep bs allAvail pick shuf t s).1.buckets (trailKey allAvail pick t)
      = shuf t (s.origs (trailKey allAvail pick t)) ∧
    ∀ x, x ∈ (balTrailStep bs allAvail pick shuf t s).1.buckets
          (trailKey allAvail pick t) →
      x ∈ s.origs (trailKey allAvail pick t) := by
  have hne : ¬ bs ≤ (s.buckets (trailKey allAvail pick t)).length :=
    not_le.mpr hshort
  refine ⟨by simp [balTrailStep, hne], by simp [balTrailStep, hne, upd_same], ?_⟩
  intro x hx
  rw [show (balTrailStep bs allAvail pick shuf t s).1.buckets
      (trailKey allAvail pick t) = shuf t (s.origs (trailKey allAvail pick t))
      from by simp [balTrailStep, hne, upd_same]] at hx
  exact (hp (s.origs (trailKey allAvail pick t))).mem_iff.mp hx

/-- Witness for C10 at `c10State` (`batch_size = 2`, identity shuffle): the
partial bucket `[5]` is discarded and the bucket becomes the snapshot
`[8, 9]`. -/
theorem claim_C10_refill_discards_partial_witness :
    (balTrailStep 2 [(50 : ℤ)] (fun _ => 0) (fun _ l => l) 0 c10State).2 = none ∧
    (balTrailStep 2 [(50 : ℤ)] (fun _ => 0) (fun _ l => l) 0
        c10State).1.buckets (trailKey [(50 : ℤ)] (fun _ => 0) 0)
      = (fun _ l => l) 0 (c10State.origs (trailKey [(50 : ℤ)] (fun _ => 0) 0)) ∧
    ∀ x, x ∈ (balTrailStep 2 [(50 : ℤ)] (fun _ => 0) (fun _ l => l) 0
          c10State).1.buckets (trailKey [(50 : ℤ)] (fun _ => 0) 0) →
      x ∈ c10State.origs (trailKey [(50 : ℤ)] (fun _ => 0) 0) :=
  claim_C10_refill_discards_partial 2 [(50 : ℤ)] (fun _ => 0) (fun _ l => l) 0
    c10State (fun l => List.Perm.refl l) (by decide) (by decide)

end AspectRatio
